import Mathlib

/-!
Verification of the `mino` geometry core and `bluefin` search state.

A shallow embedding of the Rust sources of the bluefin bot:
matrix (`src/lib/mino/src/matrix.rs`), cells and falling pieces
(`src/lib/mino/src/piece.rs`), the standard piece tables
(`src/lib/mino/src/standard_rules.rs`), place enumeration and shortest
input reconstruction (`src/lib/mino/src/places.rs`), and the clear/B2B
state machine (`src/lib/bluefin/src/state.rs`, `src/lib/bluefin/src/dag.rs`).

Machine integers are embedded as `Int` (for the `i8` coordinates) and
`Nat` (for the `u16` rows and `u8` counters, reduced `% 2 ^ 16` resp.
`% 2 ^ 8` where the width is observable).  Coordinate arithmetic in the
source uses `i8` (with wrapping addition, which the source itself
documents as never firing for real boards); the embedding uses unbounded
`Int`, which agrees with the source on the whole reachable range.
-/

namespace Mino

/-! ## Matrix (`matrix.rs`) -/

/-- Source `COLS` from `matrix.rs`: the play field is 10 columns wide. -/
def COLS : Int := 10

/-- Source `FULL = !0u16` from `matrix.rs`. -/
def FULL : Nat := 0xFFFF

/-- Source `EMPTY = FULL << COLS` (as `u16`) from `matrix.rs`: the low 10 column
bits clear, the 6 sentinel bits set. -/
def EMPTY : Nat := (FULL <<< 10) % 2 ^ 16

/-- A matrix is its slice of `u16` rows, bottom row first (`Mat` /
`MatBuf` of `matrix.rs`; the buffer and the borrowed view have the same
row contents). -/
abbrev Mat := List Nat

/-- Source `Mat::len` (the stored height). -/
def Mat.len (m : Mat) : Int := m.length

/-- Source `Mat::get`: negative `y` reads the floor (`FULL`), `y` at or above the
stored height reads `EMPTY`. -/
def Mat.get (m : Mat) (y : Int) : Nat :=
  if y < 0 then FULL
  else if h : y.toNat < m.length then List.get m ⟨y.toNat, h⟩
  else EMPTY

/-- Source `Mat::get_unchecked`: a raw row read whose precondition is
`0 ≤ y < len`; out of bounds it returns an arbitrary junk value (`0`
here), which theorem `collides_checked_eq` proves is never observed. -/
def Mat.getUnchecked (m : Mat) (y : Int) : Nat :=
  m.getD y.toNat 0

/-- Source `MatBuf::set`: negative `y` is a no-op; otherwise extend with `EMPTY`
rows as needed and OR the bits into row `y`. -/
def Mat.set (m : Mat) (y : Int) (bits : Nat) : Mat :=
  if y < 0 then m
  else
    let yn := y.toNat
    let m' := if m.length ≤ yn then m ++ List.replicate (yn + 1 - m.length) EMPTY else m
    List.set m' yn (m'.getD yn 0 ||| bits)

/-- The compaction loop of `MatBuf::clear_lines`: walk the rows from
`y_start` upward, dropping each row equal to `FULL` and moving the
remaining rows down into place; count the dropped rows. -/
def clearLinesGo : List Nat → List Nat × Nat
  | [] => ([], 0)
  | r :: rest =>
    let p := clearLinesGo rest
    if r = FULL then (p.1, p.2 + 1) else (r :: p.1, p.2)

/-- Source `MatBuf::clear_lines(y_start)`: rows below `max(y_start, 0)` (capped
at the height) are untouched; above it full rows are removed and the
count returned.  The source returns the count as `u8` via
`y_end as u8 - y_to as u8`; since a buffer never exceeds 128 rows (all
row indices are `i8`), the cast is exact and the count is embedded as a
plain `Nat`. -/
def Mat.clear_lines (m : Mat) (y_start : Int) : Mat × Nat :=
  let ys := min y_start.toNat m.length
  let p := clearLinesGo (m.drop ys)
  (m.take ys ++ p.1, p.2)

/-! ## Inputs, rotations (`input.rs`) -/

/-- Source `Input` from `input.rs`. -/
inductive Input where
  | Left
  | Right
  | Cw
  | Ccw
  | SonicDrop
deriving DecidableEq, Repr

/-- Source `Dir` from `input.rs`. -/
inductive Dir where
  | Left
  | Right
deriving DecidableEq, Repr

/-- Source `Dir as i8`: `Left = -1`, `Right = 1`. -/
def Dir.toInt : Dir → Int
  | .Left => -1
  | .Right => 1

/-- Source `Rot` from `input.rs`. -/
inductive Rot where
  | N
  | E
  | S
  | W
deriving DecidableEq, Repr

/-- Source `Rot as u8`. -/
def Rot.toNat : Rot → Nat
  | .N => 0
  | .E => 1
  | .S => 2
  | .W => 3

/-- Source `From<u8> for Rot`: `transmute(v & 3)`. -/
def Rot.fromBits (v : Nat) : Rot :=
  match v % 4 with
  | 0 => .N
  | 1 => .E
  | 2 => .S
  | _ => .W

/-- Source `Turn` from `input.rs`. -/
inductive Turn where
  | Cw
  | Ccw
deriving DecidableEq, Repr

/-- Source `Turn as u8`: `Cw = 1`, `Ccw = 3`. -/
def Turn.toNat : Turn → Nat
  | .Cw => 1
  | .Ccw => 3

/-- Source `Rot + Turn` from `input.rs`: `(self as u8 + t as u8).into()`. -/
def Rot.add (r : Rot) (t : Turn) : Rot :=
  Rot.fromBits (r.toNat + t.toNat)

/-! ## Cells (`piece.rs`) -/

/-- Source `Cells` from `piece.rs`: a 4x4 bitmask `bits` (row-major, low nibble
the bottom row) positioned by the bounding rectangle
`[x0, x1) x [y0, y1)`. -/
structure Cells where
  x0 : Int
  x1 : Int
  y0 : Int
  y1 : Int
  bits : Nat
deriving DecidableEq, Repr

/-- Source `Cells::new(xs, ys, bits)`. -/
def Cells.new (xs0 xs1 ys0 ys1 : Int) (bits : Nat) : Cells :=
  ⟨xs0, xs1, ys0, ys1, bits⟩

/-- Source `Cells::offset`. -/
def Cells.offset (c : Cells) (x y : Int) : Cells :=
  { c with x0 := c.x0 + x, x1 := c.x1 + x, y0 := c.y0 + y, y1 := c.y1 + y }

/-- Source `Cells::bottom`. -/
def Cells.bottom (c : Cells) : Int := c.y0

/-- The row loop of `Cells::collides`: starting at row `y`, for `n` rows
OR together `row & ((bits & 0b1111) << x0)` while shifting `bits` down a
nibble; the result is the accumulated `test` word. -/
def collidesGo (m : Mat) (x0 : Int) : Int → Nat → Nat → Nat
  | _, _, 0 => 0
  | y, bits, n + 1 =>
    (Mat.getUnchecked m y &&& ((bits &&& 0b1111) <<< x0.toNat)) |||
      collidesGo m x0 (y + 1) (bits >>> 4) n

/-- Source `Cells::collides`: early `true` when the bounding box pokes out the
left, right or bottom of the field, otherwise test the row masks against
the stored rows `y0 ≤ y < min y1 len`. -/
def Cells.collides (c : Cells) (m : Mat) : Bool :=
  if c.x0 < 0 ∨ c.x1 > COLS ∨ c.y0 < 0 then true
  else collidesGo m c.x0 c.y0 c.bits (min c.y1 m.len - c.y0).toNat ≠ 0

/-- The row loop of `Cells::collides` with the unchecked row read made
checked: reading a row outside `0 ≤ y < len` yields `none`. -/
def collidesCheckedGo (m : Mat) (x0 : Int) : Int → Nat → Nat → Option Nat
  | _, _, 0 => some 0
  | y, bits, n + 1 =>
    if h : 0 ≤ y ∧ y.toNat < m.length then
      (collidesCheckedGo m x0 (y + 1) (bits >>> 4) n).map
        (fun rest => (List.get m ⟨y.toNat, h.2⟩ &&& ((bits &&& 0b1111) <<< x0.toNat)) ||| rest)
    else none

/-- Source `Cells::collides` with every row read bounds-checked; `none` would
mean the precondition of the unchecked read was violated. -/
def Cells.collidesChecked (c : Cells) (m : Mat) : Option Bool :=
  if c.x0 < 0 ∨ c.x1 > COLS ∨ c.y0 < 0 then some true
  else (collidesCheckedGo m c.x0 c.y0 c.bits (min c.y1 m.len - c.y0).toNat).map (· ≠ 0)

/-- Source `Cells::immobile`: all four unit offsets collide. -/
def Cells.immobile (c : Cells) (m : Mat) : Bool :=
  (c.offset 0 (-1)).collides m &&
    (c.offset 0 1).collides m &&
    (c.offset (-1) 0).collides m &&
    (c.offset 1 0).collides m

/-- The row loop of `Cells::place`: `set` each of the `n` rows from `y`
up with its nibble mask shifted to `x0`. -/
def placeGo (x0 : Int) : Mat → Int → Nat → Nat → Mat
  | m, _, _, 0 => m
  | m, y, bits, n + 1 =>
    placeGo x0 (m.set y ((bits &&& 0b1111) <<< x0.toNat)) (y + 1) (bits >>> 4) n

/-- Source `Cells::place` / `MatBuf::place`. -/
def Cells.place (c : Cells) (m : Mat) : Mat :=
  placeGo c.x0 m c.y0 c.bits (c.y1 - c.y0).toNat

/-! ## Standard pieces (`standard_rules.rs`) -/

/-- Source `PieceType` from `standard_rules.rs`. -/
inductive PieceType where
  | I
  | J
  | L
  | O
  | S
  | T
  | Z
deriving DecidableEq, Repr

/-- Source `Spawn for PieceType`: `(4, 20)` for O, `(3, 20)` otherwise. -/
def PieceType.spawn (t : PieceType) : Int × Int :=
  if t = .O then (10 / 2 - 2 / 2, 20) else (10 / 2 - 4 / 2, 20)

/-- The `CELLS` table from `standard_rules.rs`, indexed by piece and
rotation. -/
def PieceType.cells (t : PieceType) (r : Rot) : Cells :=
  match t, r with
  | .I, .N => Cells.new 0 4 (-1) 0 0b1111
  | .I, .E => Cells.new 2 3 (-3) 1 0b0001000100010001
  | .I, .S => Cells.new 0 4 (-2) (-1) 0b1111
  | .I, .W => Cells.new 1 2 (-3) 1 0b0001000100010001
  | .J, .N => Cells.new 0 3 (-1) 1 0b00010111
  | .J, .E => Cells.new 1 3 (-2) 1 0b001100010001
  | .J, .S => Cells.new 0 3 (-2) 0 0b01110100
  | .J, .W => Cells.new 0 2 (-2) 1 0b001000100011
  | .L, .N => Cells.new 0 3 (-1) 1 0b01000111
  | .L, .E => Cells.new 1 3 (-2) 1 0b000100010011
  | .L, .S => Cells.new 0 3 (-2) 0 0b01110001
  | .L, .W => Cells.new 0 2 (-2) 1 0b001100100010
  | .O, _ => Cells.new 0 2 (-1) 1 0b00110011
  | .S, .N => Cells.new 0 3 (-1) 1 0b01100011
  | .S, .E => Cells.new 1 3 (-2) 1 0b000100110010
  | .S, .S => Cells.new 0 3 (-2) 0 0b01100011
  | .S, .W => Cells.new 0 2 (-2) 1 0b000100110010
  | .T, .N => Cells.new 0 3 (-1) 1 0b00100111
  | .T, .E => Cells.new 1 3 (-2) 1 0b000100110001
  | .T, .S => Cells.new 0 3 (-2) 0 0b01110010
  | .T, .W => Cells.new 0 2 (-2) 1 0b001000110010
  | .Z, .N => Cells.new 0 3 (-1) 1 0b00110110
  | .Z, .E => Cells.new 1 3 (-2) 1 0b001000110001
  | .Z, .S => Cells.new 0 3 (-2) 0 0b00110110
  | .Z, .W => Cells.new 0 2 (-2) 1 0b001000110001

/-- The `WALLKICKS` table from `standard_rules.rs` (non-I pieces),
indexed by the source rotation and `(turn as usize) >> 1`. -/
def wallkicksTable (r : Rot) (t : Turn) : List (Int × Int) :=
  match r, t with
  | .N, .Cw => [(0, 0), (-1, 0), (-1, 1), (0, -2), (-1, -2)]
  | .N, .Ccw => [(0, 0), (1, 0), (1, 1), (0, -2), (1, -2)]
  | .E, .Cw => [(0, 0), (1, 0), (1, -1), (0, 2), (1, 2)]
  | .E, .Ccw => [(0, 0), (1, 0), (1, -1), (0, 2), (1, 2)]
  | .S, .Cw => [(0, 0), (1, 0), (1, 1), (0, -2), (1, -2)]
  | .S, .Ccw => [(0, 0), (-1, 0), (-1, 1), (0, -2), (-1, -2)]
  | .W, .Cw => [(0, 0), (-1, 0), (-1, -1), (0, 2), (-1, 2)]
  | .W, .Ccw => [(0, 0), (-1, 0), (-1, -1), (0, 2), (-1, 2)]

/-- The `I_WALLKICKS` table from `standard_rules.rs`. -/
def iWallkicksTable (r : Rot) (t : Turn) : List (Int × Int) :=
  match r, t with
  | .N, .Cw => [(0, 0), (-2, 0), (1, 0), (-2, -1), (1, 2)]
  | .N, .Ccw => [(0, 0), (-1, 0), (2, 0), (-1, 2), (2, -1)]
  | .E, .Cw => [(0, 0), (-1, 0), (2, 0), (-1, 2), (2, -1)]
  | .E, .Ccw => [(0, 0), (2, 0), (-1, 0), (2, 1), (-1, -2)]
  | .S, .Cw => [(0, 0), (2, 0), (-1, 0), (2, 1), (-1, -2)]
  | .S, .Ccw => [(0, 0), (1, 0), (-2, 0), (1, -2), (-2, 1)]
  | .W, .Cw => [(0, 0), (1, 0), (-2, 0), (1, -2), (-2, 1)]
  | .W, .Ccw => [(0, 0), (-2, 0), (1, 0), (-2, -1), (1, 2)]

/-- Source `WallKicks for PieceType`. -/
def PieceType.wall_kicks (t : PieceType) (r : Rot) (dr : Turn) : List (Int × Int) :=
  if t = .I then iWallkicksTable r dr else wallkicksTable r dr

/-! ## Falling piece (`piece.rs`) -/

/-- Source `Pos` from `piece.rs`. -/
structure Pos where
  x : Int
  y : Int
  r : Rot
deriving DecidableEq, Repr

/-- Source `Piece<PieceType>` (`FallingPiece` of `standard_rules.rs`). -/
structure Piece where
  shape : PieceType
  pos : Pos
deriving DecidableEq, Repr

/-- Source `Piece::spawn`. -/
def Piece.spawn (t : PieceType) : Piece :=
  ⟨t, ⟨t.spawn.1, t.spawn.2, .N⟩⟩

/-- Source `Piece::cells`. -/
def Piece.cells (p : Piece) : Cells :=
  (p.shape.cells p.pos.r).offset p.pos.x p.pos.y

/-- Source `Piece::try_shift`: trial cells one unit over; commit `x` when there
is no collision. -/
def Piece.try_shift (p : Piece) (m : Mat) (dx : Dir) : Option Piece :=
  let x := p.pos.x + dx.toInt
  let cells := (p.shape.cells p.pos.r).offset x p.pos.y
  if ¬cells.collides m then some ⟨p.shape, ⟨x, p.pos.y, p.pos.r⟩⟩ else none

/-- Source `Piece::try_rotate`: try the wall kicks in order at the rotated
orientation; commit the first non-colliding offset. -/
def Piece.try_rotate (p : Piece) (m : Mat) (dr : Turn) : Option Piece :=
  let r := p.pos.r.add dr
  let cells := (p.shape.cells r).offset p.pos.x p.pos.y
  match (p.shape.wall_kicks p.pos.r dr).find? (fun k => ¬(cells.offset k.1 k.2).collides m) with
  | some k => some ⟨p.shape, ⟨p.pos.x + k.1, p.pos.y + k.2, r⟩⟩
  | none => none

/-- The descent loop in `Piece::sonic_drop`: decrement `dy` while the
cells offset one more unit down do not collide.  The extra `Nat`
argument is only a structural bound on the loop: the body runs while
`c.y0 + dy - 1 ≥ 0` (the floor collides below that), so the fuel chosen
in `sonic_drop` is never exhausted and the `0` case is unreachable. -/
def sonicGo (m : Mat) (c : Cells) : Nat → Int → Int
  | 0, dy => dy
  | fuel + 1, dy =>
    if (c.offset 0 (dy - 1)).collides m then dy else sonicGo m c fuel (dy - 1)

/-- Source `Piece::sonic_drop`: jump to the top of the stack when starting above
it, then descend one row at a time; returns the distance fallen and the
moved piece (whose cells are the returned final cells). -/
def Piece.sonic_drop (p : Piece) (m : Mat) : Int × Piece :=
  let cells := p.cells
  let dy0 : Int := if cells.bottom > m.len then m.len - cells.bottom else 0
  let dy := sonicGo m cells ((cells.y0 + dy0).toNat + 1) dy0
  (-dy, ⟨p.shape, ⟨p.pos.x, p.pos.y + dy, p.pos.r⟩⟩)

/-! ## Place enumeration (`places.rs`) -/

/-- The DFS state of the `Places` iterator: the stack of poses still to
be explored and the visited set (a list with membership testing, which
has the same semantics as the hash set of the source). -/
structure PlacesState where
  stack : List Pos
  visited : List Pos
deriving Repr

/-- Source `Places::push`: insert into the visited set; when newly visited,
also push onto the DFS stack and report `true`. -/
def placesPush (st : PlacesState) (pos : Pos) : PlacesState × Bool :=
  if pos ∈ st.visited then (st, false)
  else (⟨pos :: st.stack, pos :: st.visited⟩, true)

/-- The sideways drift loop of `Places::next`: keep shifting in
direction `d`, pushing each reached pose, stopping at the first failed
shift or the first already-visited pose.  The fuel only bounds the loop
(a successful shift moves one column inside the 10-wide field, so 16 is
never exhausted from a non-colliding pose); `none` reports exhaustion. -/
def placesDrift (m : Mat) (t : PieceType) (d : Dir) :
    Nat → Pos → PlacesState → Option PlacesState
  | 0, _, _ => none
  | fuel + 1, pos, st =>
    match Piece.try_shift ⟨t, pos⟩ m d with
    | none => some st
    | some p2 =>
      let pr := placesPush st p2.pos
      if pr.2 then placesDrift m t d fuel p2.pos pr.1 else some pr.1

/-- The body of `Places::next` for one popped pose followed by the outer
loop: push the two one-step rotations, every pose along the left and
right drifts, then sonic-drop the piece; an airborne pose is pushed back
and the loop continues, a grounded pose is emitted with its final cells.
The fuel bounds the total number of pops; `none` reports exhaustion, so
a `some` result is the full, completed enumeration. -/
def placesRun (m : Mat) (t : PieceType) :
    Nat → PlacesState → List (Pos × Cells) → Option (List (Pos × Cells))
  | 0, _, _ => none
  | fuel + 1, st, acc =>
    match st.stack with
    | [] => some acc.reverse
    | pos :: rest =>
      let st1 := { st with stack := rest }
      let st2 := match Piece.try_rotate ⟨t, pos⟩ m .Cw with
        | some p2 => (placesPush st1 p2.pos).1
        | none => st1
      let st3 := match Piece.try_rotate ⟨t, pos⟩ m .Ccw with
        | some p2 => (placesPush st2 p2.pos).1
        | none => st2
      match placesDrift m t .Left 16 pos st3 with
      | none => none
      | some st4 =>
        match placesDrift m t .Right 16 pos st4 with
        | none => none
        | some st5 =>
          let dr := Piece.sonic_drop ⟨t, pos⟩ m
          if dr.1 ≠ 0 then
            placesRun m t fuel (placesPush st5 dr.2.pos).1 acc
          else
            placesRun m t fuel st5 ((pos, dr.2.cells) :: acc)

/-- Source `places(matrix, piece)`: seed the DFS with the spawn pose when it is
not blocked and run the iterator to exhaustion, returning every yielded
`(pose, final cells)` result. -/
def places (m : Mat) (t : PieceType) (fuel : Nat) : Option (List (Pos × Cells)) :=
  let spawn_fp := Piece.spawn t
  let st0 : PlacesState := ⟨[], []⟩
  let st1 := if ¬spawn_fp.cells.collides m then (placesPush st0 spawn_fp.pos).1 else st0
  placesRun m t fuel st1 []

/-! ## Shortest input reconstruction (`places.rs`, `reach`) -/

/-- Source `ShortestPathNode`: the pose together with the chain of inputs that
discovered it (the source stores a parent pointer and cached counts; the
counts below are recomputed from the chain). -/
inductive SPNode where
  | root (pos : Pos)
  | child (parent : SPNode) (input : Input) (pos : Pos)
deriving DecidableEq, Repr

/-- The pose of a node. -/
def SPNode.pos : SPNode → Pos
  | .root p => p
  | .child _ _ p => p

/-- Source `n_shift` of `ShortestPathNodeData`. -/
def SPNode.n_shift : SPNode → Nat
  | .root _ => 0
  | .child par i _ =>
    par.n_shift + (match i with | .Left => 1 | .Right => 1 | _ => 0)

/-- Source `n_rotate` of `ShortestPathNodeData`. -/
def SPNode.n_rotate : SPNode → Nat
  | .root _ => 0
  | .child par i _ =>
    par.n_rotate + (match i with | .Cw => 1 | .Ccw => 1 | _ => 0)

/-- Source `n_drop` of `ShortestPathNodeData`. -/
def SPNode.n_drop : SPNode → Nat
  | .root _ => 0
  | .child par i _ =>
    par.n_drop + (match i with | .SonicDrop => 1 | _ => 0)

/-- Source `n_inputs()`. -/
def SPNode.n_inputs (n : SPNode) : Nat := n.n_shift + n.n_rotate + n.n_drop

/-- Source `distance()`: the lexicographic key `(inputs, drops, rotations)`. -/
def SPNode.distance (n : SPNode) : Nat × Nat × Nat :=
  (n.n_inputs, n.n_drop, n.n_rotate)

/-- Source `inputs()`: the reconstructed input sequence, source order. -/
def SPNode.inputs : SPNode → List Input
  | .root _ => []
  | .child par i _ => par.inputs ++ [i]

/-- The lexicographic order on distance triples used by the node `Ord`
implementation (the binary heap pops a minimal node under it). -/
def dLE (a b : Nat × Nat × Nat) : Bool :=
  decide (a.1 < b.1 ∨ (a.1 = b.1 ∧
    (a.2.1 < b.2.1 ∨ (a.2.1 = b.2.1 ∧ a.2.2 ≤ b.2.2))))

/-- Extract a node of minimal distance from the unvisited collection
(`BinaryHeap::pop`; ties are broken by position in the list, matching
the unspecified tie order of the heap with one concrete choice). -/
def popMin : List SPNode → Option (SPNode × List SPNode)
  | [] => none
  | n :: rest =>
    match popMin rest with
    | none => some (n, [])
    | some (mn, rest2) =>
      if dLE n.distance mn.distance then some (n, rest) else some (mn, n :: rest2)

/-- One search step as a transition on poses: the fallible application
of a single input, exactly the neighbour generation of
`ShortestPath::next` (and of `Places::next` one step at a time).  A
`SonicDrop` only counts when it moves the piece (`dy != 0`). -/
def edgeStep (m : Mat) (t : PieceType) (pos : Pos) : Input → Option Pos
  | .Left => (Piece.try_shift ⟨t, pos⟩ m .Left).map Piece.pos
  | .Right => (Piece.try_shift ⟨t, pos⟩ m .Right).map Piece.pos
  | .Cw => (Piece.try_rotate ⟨t, pos⟩ m .Cw).map Piece.pos
  | .Ccw => (Piece.try_rotate ⟨t, pos⟩ m .Ccw).map Piece.pos
  | .SonicDrop =>
    let dr := Piece.sonic_drop ⟨t, pos⟩ m
    if dr.1 ≠ 0 then some dr.2.pos else none

/-- The state of the Dijkstra loop: unvisited heap and visited set. -/
structure SPState where
  heap : List SPNode
  visited : List Pos

/-- Source `ShortestPath::push`: mark visited and enqueue a child node. -/
def spPush (st : SPState) (parent : SPNode) (i : Input) (pos : Pos) : SPState :=
  if pos ∈ st.visited then st
  else ⟨st.heap ++ [SPNode.child parent i pos], pos :: st.visited⟩

/-- The neighbour inputs in the order `ShortestPath::next` tries them. -/
def spInputs : List Input := [.Cw, .Ccw, .Left, .Right, .SonicDrop]

/-- One neighbour attempt of `ShortestPath::next`: apply input `i` from
the popped node, pushing on success. -/
def spVisitStep (m : Mat) (t : PieceType) (node : SPNode) (st : SPState) (i : Input) :
    SPState :=
  match edgeStep m t node.pos i with
  | some p2 => spPush st node i p2
  | none => st

/-- The expansion part of `ShortestPath::next` on a popped node: try the
five inputs in source order (`Cw`, `Ccw`, `Left`, `Right`, `SonicDrop`),
pushing each success, and yield the sonic-dropped cells of the node. -/
def spVisit (m : Mat) (t : PieceType) (node : SPNode) (st : SPState) : SPState × Cells :=
  (spInputs.foldl (spVisitStep m t node) st,
   (Piece.sonic_drop ⟨t, node.pos⟩ m).2.cells)

/-- The driving loop of `reach`: pop a minimal unvisited node, expand
it, stop at the first node whose dropped cells equal the target cells
(`Iterator::find`).  The fuel bounds the loop; `none` covers both an
exhausted heap (unreachable target) and fuel exhaustion. -/
def spSearch (m : Mat) (t : PieceType) (target : Cells) :
    Nat → SPState → Option SPNode
  | 0, _ => none
  | fuel + 1, st =>
    match popMin st.heap with
    | none => none
    | some pr0 =>
      let pr := spVisit m t pr0.1 { st with heap := pr0.2 }
      if pr.2 = target then some pr0.1 else spSearch m t target fuel pr.1

/-- Source `reach(matrix, target)`: Dijkstra from the spawn pose of the
shape of the target; the result is the input chain of the found node (without the
terminal drop). -/
def reach (m : Mat) (target : Piece) (fuel : Nat) : Option (List Input) :=
  let target_cells := target.cells
  let spawn_fp := Piece.spawn target.shape
  (spSearch m target.shape target_cells fuel ⟨[SPNode.root spawn_fp.pos], []⟩).map SPNode.inputs

/-! ## Execution semantics of input sequences

The game semantics of one player input: a failed shift or rotation
leaves the piece unmodified (`try_shift` and `try_rotate` return `None`
and do not move the piece), and `SonicDrop` always sonic-drops (a no-op
when the piece is already grounded).  This is the reference semantics
the reach claims quantify over. -/

/-- Execute one input on a pose. -/
def runInput (m : Mat) (t : PieceType) (pos : Pos) (i : Input) : Pos :=
  (edgeStep m t pos i).getD pos

/-- Execute a whole input sequence on a pose. -/
def run (m : Mat) (t : PieceType) (pos : Pos) (l : List Input) : Pos :=
  l.foldl (runInput m t) pos

/-- The cells a pose ends in after a terminal (hard or sonic) drop. -/
def dropCells (m : Mat) (t : PieceType) (pos : Pos) : Cells :=
  (Piece.sonic_drop ⟨t, pos⟩ m).2.cells

/-- Well-formed search nodes: the chain starts at `start` and every link
is a legal `edgeStep`. -/
def SPNode.Wf (m : Mat) (t : PieceType) (start : Pos) : SPNode → Prop
  | .root p => p = start
  | .child par i p => SPNode.Wf m t start par ∧ edgeStep m t par.pos i = some p

/-- Predicate `ReachIn m t start k p`: pose `p` is reachable from `start` by a
chain of exactly `k` legal single steps. -/
inductive ReachIn (m : Mat) (t : PieceType) (start : Pos) : Nat → Pos → Prop where
  | zero : ReachIn m t start 0 start
  | succ {k p i p2} : ReachIn m t start k p → edgeStep m t p i = some p2 →
      ReachIn m t start (k + 1) p2

/-- Pose `p` is covered at budget `k`: some well-formed node of the
search (in the heap or already popped) sits at `p` with at most `k`
inputs. -/
def Cov (m : Mat) (t : PieceType) (start : Pos) (heap popped : List SPNode)
    (p : Pos) (k : Nat) : Prop :=
  ∃ n, (n ∈ heap ∨ n ∈ popped) ∧ n.pos = p ∧ n.Wf m t start ∧ n.n_inputs ≤ k

/-- The loop invariant of the Dijkstra search, with `popped` the ghost
list of nodes popped so far: all recorded nodes are well-formed chains;
the root is still recorded; every popped node has all its successors
visited and was not the target; every visited pose is covered within
every budget it is reachable in; every pose reachable strictly below the
whole frontier is covered; and every popped distance is at most every
heap distance (pops are monotone). -/
def SPInv (m : Mat) (t : PieceType) (start : Pos) (target : Cells)
    (heap : List SPNode) (visited : List Pos) (popped : List SPNode) : Prop :=
  (∀ n, (n ∈ heap ∨ n ∈ popped) → n.Wf m t start) ∧
    (SPNode.root start ∈ heap ∨ SPNode.root start ∈ popped) ∧
    (∀ n ∈ popped, ∀ (i : Input) (p2 : Pos),
      edgeStep m t n.pos i = some p2 → p2 ∈ visited) ∧
    (∀ n ∈ popped, dropCells m t n.pos ≠ target) ∧
    (∀ p ∈ visited, ∀ k, ReachIn m t start k p → Cov m t start heap popped p k) ∧
    (∀ k p, ReachIn m t start k p → (∀ x ∈ heap, k < x.n_inputs) →
      Cov m t start heap popped p k) ∧
    (∀ n ∈ popped, ∀ x ∈ heap, dLE n.distance x.distance = true)

end Mino

namespace Bluefin

open Mino

/-! ## Clear/B2B state (`bluefin/src/state.rs`) -/

/-- Source `State` from `state.rs`.  The counters are `u8` in the source; they
are embedded as `Nat` with every increment reduced `% 2 ^ 8`, which is
the release-mode wrapping semantics of `+= 1`. -/
structure State where
  b2b : Bool := false
  b2b_clears : Nat := 0
  single_clears : Nat := 0
  double_clears : Nat := 0
  triple_clears : Nat := 0
  quad_clears : Nat := 0
  spin_single_clears : Nat := 0
  spin_double_clears : Nat := 0
  spin_triple_clears : Nat := 0
deriving DecidableEq, Repr

/-- Source `State::new(b2b)`. -/
def State.new (b2b : Bool) : State := { b2b := b2b }

/-- A wrapping `u8` increment (`+= 1` in release mode). -/
def bump (n : Nat) : Nat := (n + 1) % 2 ^ 8

/-- Source `State::next(cleared, is_spin)`: the match arms of the source in
order (`3 | 4`, `2`, `_` under spin; `4`, `3`, `2`, `_` otherwise). -/
def State.next (s : State) (cleared : Nat) (is_spin : Bool) : State :=
  if cleared = 0 then s
  else
    let b2b_clear := if is_spin then true else decide (cleared ≥ 4)
    let s :=
      if is_spin then
        if cleared = 3 ∨ cleared = 4 then { s with spin_triple_clears := bump s.spin_triple_clears }
        else if cleared = 2 then { s with spin_double_clears := bump s.spin_double_clears }
        else { s with spin_single_clears := bump s.spin_single_clears }
      else
        if cleared = 4 then { s with quad_clears := bump s.quad_clears }
        else if cleared = 3 then { s with triple_clears := bump s.triple_clears }
        else if cleared = 2 then { s with double_clears := bump s.double_clears }
        else { s with single_clears := bump s.single_clears }
    let s := if b2b_clear ∧ s.b2b then { s with b2b_clears := bump s.b2b_clears } else s
    { s with b2b := b2b_clear }

/-! ## DAG expansion step (`bluefin/src/dag.rs`) -/

/-- The body of the inner loop of `Node::expand` for one enumerated
placement: copy the matrix of the node, judge `is_spin` by immobility, place
the cells, clear lines from the bottom row of the placement, step the clear
state.  Returns the successor matrix, the cleared count, the `is_spin`
flag, and the successor state exactly as the child node receives them. -/
def expandChild (matrix : Mat) (state : State) (cells : Cells) :
    Mat × Nat × Bool × State :=
  let new_matrix := matrix
  let is_spin := cells.immobile new_matrix
  let new_matrix := cells.place new_matrix
  let p := new_matrix.clear_lines cells.bottom
  (p.1, p.2, is_spin, state.next p.2 is_spin)

end Bluefin

namespace Claims

open Mino Bluefin

/-- The S5 matrix: rows `y = 0, 1` full, `y = 2` only column 2 set,
`y = 3, 4` full, built with `MatBuf::set` as in the own test of the source. -/
def s5mat : Mat :=
  Mat.set (Mat.set (Mat.set (Mat.set (Mat.set [] 0 FULL) 1 FULL) 2 0b100) 3 FULL) 4 FULL

/-- The poses listed by S1 for piece T on the empty matrix:
`(0..=7, 1, N)`, `(-1..=7, 2, E)`, `(0..=7, 2, S)`, `(0..=8, 2, W)`. -/
def c1Expected : List Pos :=
  ((List.range 8).map fun x => ⟨x, 1, .N⟩) ++
    ((List.range 9).map fun x => ⟨(x : Int) - 1, 2, .E⟩) ++
    ((List.range 8).map fun x => ⟨x, 2, .S⟩) ++
    ((List.range 9).map fun x => ⟨x, 2, .W⟩)

/-- The completed place enumeration for piece T on the empty matrix
(300 units of fuel are plenty; the `some` certifies the fuel was not
exhausted, so this is the full yield of the iterator). -/
def c1Check : Bool :=
  match places [] .T 300 with
  | none => false
  | some l =>
    let ps := l.map Prod.fst
    decide (ps.length = 34) && decide ps.Nodup &&
      decide (∀ p ∈ c1Expected, p ∈ ps) && decide (∀ p ∈ ps, p ∈ c1Expected) &&
      decide (∀ pc ∈ l, pc.2.immobile [] = false)

end Claims

namespace Mino

theorem collides_of_y0_neg {c : Cells} (m : Mat) (h : c.y0 < 0) : c.collides m = true := by
  simp only [Cells.collides]
  rw [if_pos (Or.inr (Or.inr h))]

/-! ## Characterization of `clear_lines` -/

theorem clearLinesGo_eq (l : List Nat) :
    clearLinesGo l =
      (l.filter (fun r => decide (r ≠ FULL)), l.countP (fun r => decide (r = FULL))) := by
  induction l with
  | nil => rfl
  | cons r rest ih =>
    simp only [clearLinesGo, ih, List.filter_cons, List.countP_cons]
    by_cases h : r = FULL <;> simp [h]

theorem clear_lines_eq (m : Mat) (y : Int) :
    m.clear_lines y =
      (m.take (min y.toNat m.length) ++
        (m.drop (min y.toNat m.length)).filter (fun r => decide (r ≠ FULL)),
       (m.drop (min y.toNat m.length)).countP (fun r => decide (r = FULL))) := by
  simp only [Mat.clear_lines, clearLinesGo_eq]

theorem clear_lines_mem {m : Mat} {y : Int} {r : Nat}
    (h : r ∈ (m.clear_lines y).1) : r ∈ m := by
  rw [clear_lines_eq] at h
  rcases List.mem_append.mp h with h | h
  · exact List.mem_of_mem_take h
  · exact List.mem_of_mem_drop (List.mem_of_mem_filter h)

end Mino

namespace Claims

open Mino Bluefin

/-- C3.  `clear_lines(y_start)` removes exactly the `FULL` rows at
indices at or above `max(y_start, 0)` (capped at the height), closing the
gaps while preserving the order of the surviving rows and leaving the
rows below `max(y_start, 0)` untouched, and returns the number of rows
removed; on the S5 matrix, `clear_lines 1` returns 3 leaving rows
`[FULL, EMPTY|0b100]` and a subsequent `clear_lines 0` returns 1 leaving
`[EMPTY|0b100]`. -/
theorem c3_clear_lines_contract :
    (∀ (m : Mat) (y : Int),
        (m.clear_lines y).2 =
          ((m.drop (min y.toNat m.length)).filter (fun r => decide (r = FULL))).length ∧
        (m.clear_lines y).1 =
          m.take (min y.toNat m.length) ++
            (m.drop (min y.toNat m.length)).filter (fun r => decide (r ≠ FULL))) ∧
      s5mat.clear_lines 1 = ([FULL, EMPTY ||| 0b100], 3) ∧
      ((s5mat.clear_lines 1).1.clear_lines 0 = ([EMPTY ||| 0b100], 1)) := by
  refine ⟨fun m y => ?_, by decide, by decide⟩
  rw [clear_lines_eq]
  exact ⟨List.countP_eq_length_filter _ _, rfl⟩

/-- C7, counterexample.  A buffer may hold `EMPTY` rows (here built by a
single legitimate `set` call, which pads with `EMPTY`); `clear_lines`
only removes `FULL` rows, so the resulting nonempty matrix ends in an
`EMPTY` row, contradicting the claim. -/
theorem c7_counterexample :
    ((Mat.set [] 1 FULL).clear_lines 0).1 ≠ [] ∧
      ((Mat.set [] 1 FULL).clear_lines 0).1.getLast? = some EMPTY := by
  decide

/-- C7, amended.  For a buffer none of whose stored rows equals `EMPTY`,
after `clear_lines` the last stored row is not `EMPTY` unless the matrix
has no rows. -/
theorem c7_no_trailing_empty (m : Mat) (y : Int)
    (hm : ∀ r ∈ m, r ≠ EMPTY) (hne : (m.clear_lines y).1 ≠ []) :
    (m.clear_lines y).1.getLast? ≠ some EMPTY := by
  rw [List.getLast?_eq_getLast _ hne]
  intro h
  have hmem : (m.clear_lines y).1.getLast hne ∈ (m.clear_lines y).1 :=
    List.getLast_mem hne
  exact hm _ (clear_lines_mem hmem) (by injection h)

/-- C7 witness: a concrete sentinel-only-free buffer keeps a
non-`EMPTY` last row through `clear_lines`. -/
theorem c7_no_trailing_empty_witness :
    (Mat.clear_lines [FULL, EMPTY ||| 0b100] 0).1.getLast? ≠ some EMPTY :=
  c7_no_trailing_empty [FULL, EMPTY ||| 0b100] 0 (by decide) (by decide)

/-- C4.  In the expansion step of `Node::expand`, the `is_spin` flag
passed to `State::next` is the immobility of the final cells of the placement
on the matrix of the node as it stood at placement time — before the piece is
placed and before any line clear — and the successor state is exactly
`State::next` of the cleared count with that flag. -/
theorem c4_is_spin_pre_clear (matrix : Mat) (state : State) (cells : Cells) :
    (expandChild matrix state cells).2.2.1 = cells.immobile matrix ∧
      (expandChild matrix state cells).2.2.2 =
        state.next (expandChild matrix state cells).2.1 (cells.immobile matrix) :=
  ⟨rfl, rfl⟩

/-- C5.  The transition rules of `State::next`: no change on zero
cleared; under spin the matching spin counter is bumped (3 and 4 both
map to spin-triple) and the clear is B2B-eligible; without spin the
matching plain counter is bumped and the clear is B2B-eligible exactly
when four or more lines cleared; `b2b_clears` is bumped exactly when the
clear is eligible and the previous `b2b` flag held; the new `b2b` flag is
the eligibility; and the S6 call sequence ends in the expected state. -/
theorem c5_state_next_rules :
    (∀ (s : State) (b : Bool), s.next 0 b = s) ∧
      (∀ s : State, s.next 1 true =
        { s with spin_single_clears := bump s.spin_single_clears, b2b := true,
                 b2b_clears := if s.b2b then bump s.b2b_clears else s.b2b_clears }) ∧
      (∀ s : State, s.next 2 true =
        { s with spin_double_clears := bump s.spin_double_clears, b2b := true,
                 b2b_clears := if s.b2b then bump s.b2b_clears else s.b2b_clears }) ∧
      (∀ s : State, s.next 3 true =
        { s with spin_triple_clears := bump s.spin_triple_clears, b2b := true,
                 b2b_clears := if s.b2b then bump s.b2b_clears else s.b2b_clears }) ∧
      (∀ s : State, s.next 4 true =
        { s with spin_triple_clears := bump s.spin_triple_clears, b2b := true,
                 b2b_clears := if s.b2b then bump s.b2b_clears else s.b2b_clears }) ∧
      (∀ s : State, s.next 1 false = { s with single_clears := bump s.single_clears, b2b := false }) ∧
      (∀ s : State, s.next 2 false = { s with double_clears := bump s.double_clears, b2b := false }) ∧
      (∀ s : State, s.next 3 false = { s with triple_clears := bump s.triple_clears, b2b := false }) ∧
      (∀ s : State, s.next 4 false =
        { s with quad_clears := bump s.quad_clears, b2b := true,
                 b2b_clears := if s.b2b then bump s.b2b_clears else s.b2b_clears }) ∧
      ((((((((State.new false).next 2 false).next 2 false).next 0 false).next 2
              true).next 0 false).next 4 false).next 0 false =
        { b2b := true, b2b_clears := 1, quad_clears := 1, spin_double_clears := 1,
          double_clears := 2 }) := by
  refine ⟨fun s b => rfl, ?_, ?_, ?_, ?_, ?_, ?_, ?_, ?_, by decide⟩ <;>
    intro s <;> simp only [State.next] <;> norm_num <;>
    cases hb : s.b2b <;> simp [hb]

/-- C9, counterexample.  The counters are `u8`: on a state whose quad
counter is 255, a further quad wraps it to 0, so the counters of
`State::next` are not always at least those of the input state. -/
theorem c9_counterexample :
    ¬({ State.new false with quad_clears := 255 }.quad_clears ≤
        ({ State.new false with quad_clears := 255 }.next 4 false).quad_clears) := by
  decide

/-- C9, amended.  Provided no counter of `s` sits at the `u8` maximum
255, every counter of `State::next s cleared is_spin` is at least the
corresponding counter of `s`; counters are therefore non-decreasing
along any `next` sequence that stays below the wrap. -/
theorem c9_counters_monotone (s : State) (cleared : Nat) (is_spin : Bool)
    (h : s.b2b_clears < 255 ∧ s.single_clears < 255 ∧ s.double_clears < 255 ∧
      s.triple_clears < 255 ∧ s.quad_clears < 255 ∧ s.spin_single_clears < 255 ∧
      s.spin_double_clears < 255 ∧ s.spin_triple_clears < 255) :
    s.b2b_clears ≤ (s.next cleared is_spin).b2b_clears ∧
      s.single_clears ≤ (s.next cleared is_spin).single_clears ∧
      s.double_clears ≤ (s.next cleared is_spin).double_clears ∧
      s.triple_clears ≤ (s.next cleared is_spin).triple_clears ∧
      s.quad_clears ≤ (s.next cleared is_spin).quad_clears ∧
      s.spin_single_clears ≤ (s.next cleared is_spin).spin_single_clears ∧
      s.spin_double_clears ≤ (s.next cleared is_spin).spin_double_clears ∧
      s.spin_triple_clears ≤ (s.next cleared is_spin).spin_triple_clears := by
  obtain ⟨h1, h2, h3, h4, h5, h6, h7, h8⟩ := h
  simp only [State.next, bump]
  split_ifs <;> simp <;> omega

/-- C9 witness: from a concrete below-wrap state, one transition keeps
every counter at least as large. -/
theorem c9_counters_monotone_witness :
    ({ State.new true with double_clears := 7 } : State).double_clears ≤
      (({ State.new true with double_clears := 7 } : State).next 2 false).double_clears :=
  (c9_counters_monotone { State.new true with double_clears := 7 } 2 false
    (by decide)).2.2.1

theorem collidesCheckedGo_eq (m : Mat) (x0 : Int) :
    ∀ (n : Nat) (y : Int) (bits : Nat), 0 ≤ y →
      (y.toNat + n ≤ m.length ∨ n = 0) →
      collidesCheckedGo m x0 y bits n = some (collidesGo m x0 y bits n)
  | 0, y, bits, _, _ => rfl
  | n + 1, y, bits, hy, hn => by
    have hlt : y.toNat < m.length := by omega
    have ih := collidesCheckedGo_eq m x0 n (y + 1) (bits >>> 4) (by omega) (by omega)
    simp only [collidesCheckedGo, collidesGo, dif_pos (And.intro hy hlt), ih]
    have hget : Mat.getUnchecked m y = List.get m ⟨y.toNat, hlt⟩ := by
      simp [Mat.getUnchecked, List.getD_eq_getElem?_getD, List.getElem?_eq_getElem hlt]
    rw [hget]
    rfl

/-- C10.  `Cells::collides` is total and every row it reads is a stored
row: the bounds-checked variant never reaches its out-of-bounds branch
and agrees with the unchecked one on every cells value and matrix. -/
theorem c10_collides_in_bounds (c : Cells) (m : Mat) :
    c.collidesChecked m = some (c.collides m) := by
  simp only [Cells.collidesChecked, Cells.collides]
  by_cases h : c.x0 < 0 ∨ c.x1 > COLS ∨ c.y0 < 0
  · simp [h]
  · push_neg at h
    have hmin : min c.y1 m.len ≤ (m.length : Int) := min_le_right _ _
    rw [if_neg (by push_neg; exact h), if_neg (by push_neg; exact h),
      collidesCheckedGo_eq m c.x0 _ c.y0 c.bits h.2.2 (by omega)]
    rfl

theorem offset_zero (c : Cells) : c.offset 0 0 = c := by
  cases c
  simp [Cells.offset]

theorem wall_kicks_head (t : PieceType) (r : Rot) (dr : Turn) :
    t.wall_kicks r dr = (0, 0) :: (t.wall_kicks r dr).tail := by
  cases t <;> cases r <;> cases dr <;> rfl

theorem rot_cw_ccw (r : Rot) : (r.add .Cw).add .Ccw = r := by
  cases r <;> rfl

/-- C6, counterexample.  On the empty matrix a Cw rotation of T from
`(3,1,N)` succeeds only through the kick `(-1,1)`, landing at `(2,2,E)`;
the Ccw rotation back succeeds with the identity kick at `(2,2,N)`, which
differs from the original pose.  Both rotations succeed, yet the
round trip does not return to the starting pose. -/
theorem c6_counterexample :
    Piece.try_rotate ⟨.T, ⟨3, 1, .N⟩⟩ [] .Cw = some ⟨.T, ⟨2, 2, .E⟩⟩ ∧
      Piece.try_rotate ⟨.T, ⟨2, 2, .E⟩⟩ [] .Ccw = some ⟨.T, ⟨2, 2, .N⟩⟩ ∧
      (⟨.T, ⟨2, 2, .N⟩⟩ : Piece) ≠ ⟨.T, ⟨3, 1, .N⟩⟩ := by
  refine ⟨by decide, by decide, by decide⟩

/-- C6, amended.  For every shape and every pose whose cells do not
collide on the empty matrix, if the Cw rotation succeeds with the
identity wall kick — the rotated cells at the unmoved position are
collision-free — then rotating Cw and then Ccw returns exactly to the
original pose (both rotations succeeding). -/
theorem c6_rotate_round_trip (t : PieceType) (p : Pos)
    (hc : ¬((t.cells p.r).offset p.x p.y).collides [])
    (hcw : ¬((t.cells (p.r.add .Cw)).offset p.x p.y).collides []) :
    Piece.try_rotate ⟨t, p⟩ [] .Cw = some ⟨t, ⟨p.x, p.y, p.r.add .Cw⟩⟩ ∧
      Piece.try_rotate ⟨t, ⟨p.x, p.y, p.r.add .Cw⟩⟩ [] .Ccw = some ⟨t, p⟩ := by
  constructor
  · simp only [Piece.try_rotate]
    rw [wall_kicks_head]
    simp only [List.find?]
    rw [offset_zero] at *
    simp [hcw]
  · simp only [Piece.try_rotate, rot_cw_ccw]
    rw [wall_kicks_head]
    simp only [List.find?]
    rw [offset_zero] at *
    simp [hc]

/-- C6 witness: a concrete airborne T pose where both identity-kick
rotations apply and the round trip is exact. -/
theorem c6_rotate_round_trip_witness :
    Piece.try_rotate ⟨.T, ⟨3, 10, .N⟩⟩ [] .Cw = some ⟨.T, ⟨3, 10, Rot.N.add .Cw⟩⟩ ∧
      Piece.try_rotate ⟨.T, ⟨3, 10, Rot.N.add .Cw⟩⟩ [] .Ccw = some ⟨.T, ⟨3, 10, .N⟩⟩ :=
  c6_rotate_round_trip .T ⟨3, 10, .N⟩ (by decide) (by decide)

theorem collides_above_stack {c : Cells} {m : Mat}
    (h1 : ¬(c.x0 < 0 ∨ c.x1 > COLS ∨ c.y0 < 0)) (h2 : Mat.len m ≤ c.y0) :
    c.collides m = false := by
  simp only [Cells.collides, if_neg h1]
  have : (min c.y1 m.len - c.y0).toNat = 0 := by
    have := min_le_right c.y1 m.len
    omega
  rw [this]
  simp [collidesGo]

theorem offset_offset (c : Cells) (a b a2 b2 : Int) :
    (c.offset a b).offset a2 b2 = c.offset (a + a2) (b + b2) := by
  cases c
  simp only [Cells.offset, Cells.mk.injEq]
  refine ⟨by ring, by ring, by ring, by ring, trivial⟩

theorem sonicGo_spec (m : Mat) (c : Cells) :
    ∀ (fuel : Nat) (dy : Int), c.y0 + dy < fuel →
      (c.offset 0 dy).collides m = false →
      sonicGo m c fuel dy ≤ dy ∧
        (c.offset 0 (sonicGo m c fuel dy - 1)).collides m = true ∧
        ∀ d, sonicGo m c fuel dy ≤ d → d ≤ dy → (c.offset 0 d).collides m = false := by
  intro fuel
  induction fuel with
  | zero =>
    intro dy hfuel hfree
    exfalso
    have hy : ¬(c.offset 0 dy).y0 < 0 := by
      intro hneg
      rw [collides_of_y0_neg m hneg] at hfree
      exact Bool.noConfusion hfree
    simp only [Cells.offset] at hy
    omega
  | succ fuel ih =>
    intro dy hfuel hfree
    by_cases hcol : (c.offset 0 (dy - 1)).collides m
    · rw [sonicGo, if_pos hcol]
      exact ⟨le_refl _, hcol, fun d h1 h2 => by rwa [le_antisymm h2 h1]⟩
    · have hfree2 : (c.offset 0 (dy - 1)).collides m = false := by simpa using hcol
      have hy : ¬(c.offset 0 (dy - 1)).y0 < 0 := fun hneg => hcol (collides_of_y0_neg m hneg)
      simp only [Cells.offset] at hy
      have ih2 := ih (dy - 1) (by omega) hfree2
      rw [sonicGo, if_neg hcol]
      refine ⟨ih2.1.trans (by omega), ih2.2.1, fun d h1 h2 => ?_⟩
      rcases lt_or_eq_of_le h2 with hlt | heq
      · exact ih2.2.2 d h1 (by omega)
      · rwa [heq]

/-- C8, counterexample.  On a matrix whose row 0 is empty and row 1 is
full, an I piece dropped from its spawn stops on top of the full row,
returning `k = 17`; yet the offset by `(0, -19)`, placing the piece
inside the empty cavity below the full row, does not collide, so `k` is
not the greatest collision-free downward offset. -/
theorem c8_counterexample :
    (Piece.spawn .I).cells.collides [EMPTY, FULL] = false ∧
      ((Piece.spawn .I).sonic_drop [EMPTY, FULL]).1 = 17 ∧
      ((Piece.spawn .I).cells.offset 0 (-19)).collides [EMPTY, FULL] = false ∧
      ¬(19 : Int) ≤ 17 := by
  refine ⟨by decide, by decide, by decide, by decide⟩

/-- C8, amended.  For every matrix and every falling piece whose cells do
not collide, `sonic_drop` returns `(k, final)` where `k ≥ 0` is the
greatest drop such that every intermediate offset `(0, -j)`, `0 ≤ j ≤ k`,
is collision-free; the `y` of the piece decreases by exactly `k` (with `x`,
rotation and shape unchanged), the final cells are the original cells
offset by `(0, -k)`, and equivalently the final cells are collision-free
while one further row down collides. -/
theorem c8_sonic_drop (m : Mat) (p : Piece)
    (h : p.cells.collides m = false) :
    0 ≤ (p.sonic_drop m).1 ∧
      (p.sonic_drop m).2.shape = p.shape ∧
      (p.sonic_drop m).2.pos.x = p.pos.x ∧
      (p.sonic_drop m).2.pos.r = p.pos.r ∧
      (p.sonic_drop m).2.pos.y = p.pos.y - (p.sonic_drop m).1 ∧
      (p.sonic_drop m).2.cells = p.cells.offset 0 (-(p.sonic_drop m).1) ∧
      (∀ j : Int, 0 ≤ j → j ≤ (p.sonic_drop m).1 →
        (p.cells.offset 0 (-j)).collides m = false) ∧
      (p.cells.offset 0 (-((p.sonic_drop m).1 + 1))).collides m = true ∧
      (p.sonic_drop m).2.cells.collides m = false ∧
      ((p.sonic_drop m).2.cells.offset 0 (-1)).collides m = true ∧
      ∀ k : Int, 0 ≤ k →
        (∀ j : Int, 0 ≤ j → j ≤ k → (p.cells.offset 0 (-j)).collides m = false) →
        k ≤ (p.sonic_drop m).1 := by
  have hbox : ¬(p.cells.x0 < 0 ∨ p.cells.x1 > COLS ∨ p.cells.y0 < 0) := by
    intro hc
    simp only [Cells.collides, if_pos hc] at h
    exact Bool.noConfusion h
  have hlen0 : (0 : Int) ≤ m.len := Int.natCast_nonneg _
  set cells := p.cells with hcells
  set dy0 : Int := if cells.bottom > m.len then m.len - cells.bottom else 0 with hdy0
  have hdy0le : dy0 ≤ 0 := by
    rw [hdy0]
    split <;> omega
  have hA : ∀ d, dy0 ≤ d → d ≤ 0 → (cells.offset 0 d).collides m = false := by
    intro d h1 h2
    rcases eq_or_lt_of_le h2 with heq | hlt
    · rw [heq, offset_zero]
      exact h
    · have hd0 : dy0 < 0 := lt_of_le_of_lt h1 hlt
      have htop : cells.bottom > m.len := by
        by_contra hc
        rw [hdy0, if_neg hc] at hd0
        omega
      rw [hdy0, if_pos htop] at h1
      refine collides_above_stack ?_ ?_
      · simp only [Cells.offset]
        simp only [Cells.bottom] at h1 htop
        omega
      · simp only [Cells.offset, Cells.bottom] at h1 ⊢
        omega
  have hfree0 : (cells.offset 0 dy0).collides m = false := hA dy0 le_rfl hdy0le
  have hL := sonicGo_spec m cells ((cells.y0 + dy0).toNat + 1) dy0 (by omega) hfree0
  set dyf := sonicGo m cells ((cells.y0 + dy0).toNat + 1) dy0 with hdyf
  have hrange : ∀ d, dyf ≤ d → d ≤ 0 → (cells.offset 0 d).collides m = false := by
    intro d h1 h2
    by_cases hc : d ≤ dy0
    · exact hL.2.2 d h1 hc
    · exact hA d (by omega) h2
  have hdrop : p.sonic_drop m = (-dyf, ⟨p.shape, ⟨p.pos.x, p.pos.y + dyf, p.pos.r⟩⟩) := rfl
  have hfinalcells :
      (⟨p.shape, ⟨p.pos.x, p.pos.y + dyf, p.pos.r⟩⟩ : Piece).cells = cells.offset 0 dyf := by
    rw [hcells]
    simp only [Piece.cells]
    cases hsc : p.shape.cells p.pos.r
    simp only [Cells.offset, Cells.mk.injEq]
    refine ⟨by ring, by ring, by ring, by ring, trivial⟩
  have hdyfle : dyf ≤ 0 := hL.1.trans hdy0le
  rw [hdrop]
  refine ⟨by show (0 : Int) ≤ -dyf; omega, rfl, rfl, rfl,
    by show p.pos.y + dyf = p.pos.y - -dyf; ring, ?_, ?_, ?_, ?_, ?_, ?_⟩
  · show (⟨p.shape, ⟨p.pos.x, p.pos.y + dyf, p.pos.r⟩⟩ : Piece).cells = cells.offset 0 (- -dyf)
    rw [neg_neg]
    exact hfinalcells
  · intro j h1 h2
    exact hrange (-j) (by omega) (by omega)
  · have := hL.2.1
    rwa [show -(-dyf + 1) = dyf - 1 by ring]
  · rw [hfinalcells]
    exact hrange dyf le_rfl hdyfle
  · rw [hfinalcells, offset_offset]
    have := hL.2.1
    rwa [show (0 : Int) + 0 = 0 by ring, show dyf + -1 = dyf - 1 by ring]
  · intro k hk hkfree
    by_contra hgt
    push_neg at hgt
    have := hkfree (-dyf + 1) (by omega) (by omega)
    rw [show -(-dyf + 1) = dyf - 1 by ring] at this
    rw [hL.2.1] at this
    exact Bool.noConfusion this

/-- C8 witness: dropping a spawned T on the empty matrix falls a
non-negative distance onto a resting position with the floor below. -/
theorem c8_sonic_drop_witness :
    0 ≤ ((Piece.spawn .T).sonic_drop []).1 ∧
      ((Piece.spawn .T).sonic_drop []).2.cells.collides [] = false ∧
      (((Piece.spawn .T).sonic_drop []).2.cells.offset 0 (-1)).collides [] = true := by
  have h := c8_sonic_drop [] (Piece.spawn .T) (by decide)
  exact ⟨h.1, h.2.2.2.2.2.2.2.2.1, h.2.2.2.2.2.2.2.2.2.1⟩

end Claims

namespace Claims

open Mino Bluefin

/-- C1, counterexample.  The pose collection S1 lists for T on the empty
matrix contains 34 distinct poses, not 33, and the enumerator indeed
yields 34 poses; `places()` therefore does not yield exactly 33 poses. -/
theorem c1_counterexample :
    c1Expected.Nodup ∧ c1Expected.length = 34 ∧
      (places [] .T 300).map (fun l => (l.map Prod.fst).length) = some 34 ∧
      (34 : Nat) ≠ 33 := by
  refine ⟨by decide, by decide, by decide, by decide⟩

/-- C1, amended.  On the empty matrix with piece T the enumeration runs
to completion and yields exactly the 34 poses
`{(0..=7, 1, N), (-1..=7, 2, E), (0..=7, 2, S), (0..=8, 2, W)}`, each
exactly once, and none of the yielded results is immobile. -/
theorem c1_places_complete : c1Check = true := by decide

end Claims

namespace Mino

/-! ## Lemmas for the shortest-path search -/

theorem dLE_refl (a : Nat × Nat × Nat) : dLE a a = true := by
  simp [dLE]

theorem dLE_trans {a b c : Nat × Nat × Nat}
    (h1 : dLE a b = true) (h2 : dLE b c = true) : dLE a c = true := by
  simp only [dLE, decide_eq_true_eq] at *
  omega

theorem dLE_total (a b : Nat × Nat × Nat) : dLE a b = true ∨ dLE b a = true := by
  simp only [dLE, decide_eq_true_eq]
  omega

theorem dLE_fst {a b : Nat × Nat × Nat} (h : dLE a b = true) : a.1 ≤ b.1 := by
  simp only [dLE, decide_eq_true_eq] at h
  omega

theorem dLE_of_fst_lt {a b : Nat × Nat × Nat} (h : a.1 < b.1) : dLE a b = true := by
  simp only [dLE, decide_eq_true_eq]
  omega

theorem popMin_eq_none {l : List SPNode} (h : popMin l = none) : l = [] := by
  cases l with
  | nil => rfl
  | cons a rest =>
    simp only [popMin] at h
    rcases hr : popMin rest with _ | pr
    · rw [hr] at h
      exact absurd h (by simp)
    · rw [hr] at h
      by_cases hd : dLE a.distance pr.1.distance = true <;> simp [hd] at h

theorem popMin_spec {l : List SPNode} {n : SPNode} {rest : List SPNode}
    (h : popMin l = some (n, rest)) :
    l.Perm (n :: rest) ∧ ∀ x ∈ l, dLE n.distance x.distance = true := by
  induction l generalizing n rest with
  | nil => exact absurd h (by simp [popMin])
  | cons a l0 ih =>
    simp only [popMin] at h
    rcases hr : popMin l0 with _ | pr
    · rw [hr] at h
      have hl0 : l0 = [] := popMin_eq_none hr
      subst hl0
      simp only [Option.some.injEq, Prod.mk.injEq] at h
      obtain ⟨rfl, rfl⟩ := h
      exact ⟨List.Perm.refl _, by
        intro x hx
        simp only [List.mem_singleton] at hx
        subst hx
        exact dLE_refl _⟩
    · rw [hr] at h
      obtain ⟨mn, rest2⟩ := pr
      dsimp only at h
      obtain ⟨hperm, hmin⟩ := ih hr
      by_cases hd : dLE a.distance mn.distance = true
      · rw [if_pos hd] at h
        simp only [Option.some.injEq, Prod.mk.injEq] at h
        obtain ⟨rfl, rfl⟩ := h
        refine ⟨List.Perm.refl _, ?_⟩
        intro x hx
        rcases List.mem_cons.mp hx with rfl | hx0
        · exact dLE_refl _
        · exact dLE_trans hd (hmin x hx0)
      · rw [if_neg hd] at h
        simp only [Option.some.injEq, Prod.mk.injEq] at h
        obtain ⟨rfl, rfl⟩ := h
        constructor
        · exact (List.Perm.cons a hperm).trans (List.Perm.swap _ _ _)
        · intro x hx
          rcases List.mem_cons.mp hx with rfl | hx0
          · rcases dLE_total x.distance mn.distance with h1 | h1
            · exact absurd h1 hd
            · exact h1
          · exact hmin x hx0

theorem n_inputs_child (par : SPNode) (i : Input) (p : Pos) :
    (SPNode.child par i p).n_inputs = par.n_inputs + 1 := by
  cases i <;>
    simp [SPNode.n_inputs, SPNode.n_shift, SPNode.n_rotate, SPNode.n_drop] <;> omega

theorem inputs_length (n : SPNode) : n.inputs.length = n.n_inputs := by
  induction n with
  | root p => rfl
  | child par i p ih =>
    simp only [SPNode.inputs, List.length_append, List.length_singleton, ih, n_inputs_child]

theorem wf_run {m : Mat} {t : PieceType} {start : Pos} {n : SPNode}
    (hw : n.Wf m t start) : run m t start n.inputs = n.pos := by
  induction n with
  | root p => exact hw.symm
  | child par i p ih =>
    obtain ⟨hpar, hstep⟩ := hw
    simp only [SPNode.inputs, run, List.foldl_append, List.foldl_cons, List.foldl_nil]
    rw [show List.foldl (runInput m t) start par.inputs = run m t start par.inputs from rfl,
      ih hpar]
    show runInput m t par.pos i = (SPNode.child par i p).pos
    simp only [runInput]
    rw [hstep]
    rfl

theorem wf_reachIn {m : Mat} {t : PieceType} {start : Pos} {n : SPNode}
    (hw : n.Wf m t start) : ReachIn m t start n.n_inputs n.pos := by
  induction n with
  | root p =>
    cases hw
    exact ReachIn.zero
  | child par i p ih =>
    obtain ⟨hpar, hstep⟩ := hw
    rw [n_inputs_child]
    exact ReachIn.succ (ih hpar) hstep

theorem runInput_cases (m : Mat) (t : PieceType) (pos : Pos) (i : Input) :
    runInput m t pos i = pos ∨ edgeStep m t pos i = some (runInput m t pos i) := by
  rcases he : edgeStep m t pos i with _ | p2
  · left
    simp [runInput, he]
  · right
    simp [runInput, he]

theorem run_reachIn (m : Mat) (t : PieceType) (start : Pos) (l : List Input) :
    ∃ k ≤ l.length, ReachIn m t start k (run m t start l) := by
  induction l using List.reverseRecOn with
  | nil => exact ⟨0, Nat.le_refl 0, ReachIn.zero⟩
  | append_singleton l i ih =>
    obtain ⟨k, hk, hr⟩ := ih
    have hrun : run m t start (l ++ [i]) = runInput m t (run m t start l) i := by
      simp [run, List.foldl_append]
    rcases runInput_cases m t (run m t start l) i with hcase | hcase
    · rw [hrun, hcase]
      exact ⟨k, by simp; omega, hr⟩
    · rw [hrun]
      exact ⟨k + 1, by simp; omega, ReachIn.succ hr hcase⟩

end Mino

namespace Mino

theorem spPush_visited_mono {st : SPState} {par : SPNode} {i : Input} {q p : Pos}
    (h : p ∈ st.visited) : p ∈ (spPush st par i q).visited := by
  simp only [spPush]
  split
  · exact h
  · exact List.mem_cons_of_mem _ h

theorem spPush_target_visited (st : SPState) (par : SPNode) (i : Input) (q : Pos) :
    q ∈ (spPush st par i q).visited := by
  simp only [spPush]
  split
  · assumption
  · exact List.mem_cons_self _ _

theorem spPush_heap_mono {st : SPState} {par : SPNode} {i : Input} {q : Pos} {x : SPNode}
    (h : x ∈ st.heap) : x ∈ (spPush st par i q).heap := by
  simp only [spPush]
  split
  · exact h
  · exact List.mem_append_left _ h

theorem spPush_heap_cases {st : SPState} {par : SPNode} {i : Input} {q : Pos} {x : SPNode}
    (h : x ∈ (spPush st par i q).heap) : x ∈ st.heap ∨ x = SPNode.child par i q := by
  simp only [spPush] at h
  split at h
  · exact Or.inl h
  · rcases List.mem_append.mp h with h1 | h1
    · exact Or.inl h1
    · exact Or.inr (List.mem_singleton.mp h1)

theorem spPush_visited_cases {st : SPState} {par : SPNode} {i : Input} {q p : Pos}
    (h : p ∈ (spPush st par i q).visited) :
    p ∈ st.visited ∨ (p = q ∧ SPNode.child par i q ∈ (spPush st par i q).heap) := by
  by_cases hq : q ∈ st.visited
  · rw [spPush, if_pos hq] at h
    exact Or.inl h
  · rw [spPush, if_neg hq] at h
    rcases List.mem_cons.mp h with rfl | h1
    · refine Or.inr ⟨rfl, ?_⟩
      rw [spPush, if_neg hq]
      exact List.mem_append_right _ (List.mem_singleton.mpr rfl)
    · exact Or.inl h1

theorem stepHeapMono {m : Mat} {t : PieceType} {node : SPNode} {st : SPState} {i : Input}
    {x : SPNode} (h : x ∈ st.heap) : x ∈ (spVisitStep m t node st i).heap := by
  simp only [spVisitStep]
  split
  · exact spPush_heap_mono h
  · exact h

theorem stepVisitedMono {m : Mat} {t : PieceType} {node : SPNode} {st : SPState} {i : Input}
    {p : Pos} (h : p ∈ st.visited) : p ∈ (spVisitStep m t node st i).visited := by
  simp only [spVisitStep]
  split
  · exact spPush_visited_mono h
  · exact h

theorem stepHeapCases {m : Mat} {t : PieceType} {node : SPNode} {st : SPState} {i : Input}
    {x : SPNode} (h : x ∈ (spVisitStep m t node st i).heap) :
    x ∈ st.heap ∨ ∃ p2, edgeStep m t node.pos i = some p2 ∧ x = SPNode.child node i p2 := by
  simp only [spVisitStep] at h
  split at h
  · next p2 he =>
    rcases spPush_heap_cases h with h1 | h1
    · exact Or.inl h1
    · exact Or.inr ⟨p2, he, h1⟩
  · exact Or.inl h

theorem stepVisitedCases {m : Mat} {t : PieceType} {node : SPNode} {st : SPState} {i : Input}
    {p : Pos} (h : p ∈ (spVisitStep m t node st i).visited) :
    p ∈ st.visited ∨
      (edgeStep m t node.pos i = some p ∧
        SPNode.child node i p ∈ (spVisitStep m t node st i).heap) := by
  simp only [spVisitStep] at h
  split at h
  · next p2 he =>
    rcases spPush_visited_cases h with h1 | ⟨heq, h1⟩
    · exact Or.inl h1
    · subst heq
      refine Or.inr ⟨he, ?_⟩
      simp only [spVisitStep, he]
      exact h1
  · exact Or.inl h

theorem stepEdgeVisited {m : Mat} {t : PieceType} {node : SPNode} {st : SPState} {i : Input}
    {p2 : Pos} (he : edgeStep m t node.pos i = some p2) :
    p2 ∈ (spVisitStep m t node st i).visited := by
  simp only [spVisitStep, he]
  exact spPush_target_visited _ _ _ _

theorem foldHeapMono {m : Mat} {t : PieceType} {node : SPNode} :
    ∀ (L : List Input) (st : SPState) (x : SPNode), x ∈ st.heap →
      x ∈ (L.foldl (spVisitStep m t node) st).heap
  | [], _, _, h => h
  | i :: L, st, x, h =>
    foldHeapMono L (spVisitStep m t node st i) x (stepHeapMono h)

theorem foldVisitedMono {m : Mat} {t : PieceType} {node : SPNode} :
    ∀ (L : List Input) (st : SPState) (p : Pos), p ∈ st.visited →
      p ∈ (L.foldl (spVisitStep m t node) st).visited
  | [], _, _, h => h
  | i :: L, st, p, h =>
    foldVisitedMono L (spVisitStep m t node st i) p (stepVisitedMono h)

theorem foldHeapCases {m : Mat} {t : PieceType} {node : SPNode} :
    ∀ (L : List Input) (st : SPState) (x : SPNode),
      x ∈ (L.foldl (spVisitStep m t node) st).heap →
      x ∈ st.heap ∨
        ∃ i ∈ L, ∃ p2, edgeStep m t node.pos i = some p2 ∧ x = SPNode.child node i p2 := by
  intro L
  induction L with
  | nil => exact fun st x h => Or.inl h
  | cons i L ih =>
    intro st x h
    rcases ih (spVisitStep m t node st i) x h with h1 | ⟨j, hj, p2, he, rfl⟩
    · rcases stepHeapCases h1 with h2 | ⟨p2, he, rfl⟩
      · exact Or.inl h2
      · exact Or.inr ⟨i, List.mem_cons_self _ _, p2, he, rfl⟩
    · exact Or.inr ⟨j, List.mem_cons_of_mem _ hj, p2, he, rfl⟩

theorem foldVisitedCases {m : Mat} {t : PieceType} {node : SPNode} :
    ∀ (L : List Input) (st : SPState) (p : Pos),
      p ∈ (L.foldl (spVisitStep m t node) st).visited →
      p ∈ st.visited ∨
        ∃ i ∈ L, edgeStep m t node.pos i = some p ∧
          SPNode.child node i p ∈ (L.foldl (spVisitStep m t node) st).heap := by
  intro L
  induction L with
  | nil => exact fun st p h => Or.inl h
  | cons i L ih =>
    intro st p h
    rcases ih (spVisitStep m t node st i) p h with h1 | ⟨j, hj, he, hh⟩
    · rcases stepVisitedCases h1 with h2 | ⟨he, hh⟩
      · exact Or.inl h2
      · exact Or.inr ⟨i, List.mem_cons_self _ _, he,
          foldHeapMono L (spVisitStep m t node st i) _ hh⟩
    · exact Or.inr ⟨j, List.mem_cons_of_mem _ hj, he, hh⟩

theorem foldEdgeVisited {m : Mat} {t : PieceType} {node : SPNode} :
    ∀ (L : List Input) (st : SPState) (i : Input), i ∈ L → ∀ p2 : Pos,
      edgeStep m t node.pos i = some p2 →
      p2 ∈ (L.foldl (spVisitStep m t node) st).visited := by
  intro L
  induction L with
  | nil => exact fun st i h => absurd h (List.not_mem_nil i)
  | cons j L ih =>
    intro st i hi p2 he
    rcases List.mem_cons.mp hi with rfl | hi2
    · exact foldVisitedMono L _ p2 (stepEdgeVisited he)
    · exact ih _ i hi2 p2 he

theorem input_mem_spInputs (i : Input) : i ∈ spInputs := by
  cases i <;> simp [spInputs]

end Mino

namespace Mino

theorem cov_mono {m : Mat} {t : PieceType} {start : Pos}
    {heap popped heap2 popped2 : List SPNode} {p : Pos} {k : Nat}
    (hsub : ∀ n : SPNode, (n ∈ heap ∨ n ∈ popped) → (n ∈ heap2 ∨ n ∈ popped2))
    (h : Cov m t start heap popped p k) : Cov m t start heap2 popped2 p k := by
  obtain ⟨n, hmem, hpos, hwf, hle⟩ := h
  exact ⟨n, hsub n hmem, hpos, hwf, hle⟩

theorem root_n_inputs (start : Pos) : (SPNode.root start).n_inputs = 0 := rfl

theorem spInv_init (m : Mat) (t : PieceType) (start : Pos) (target : Cells) :
    SPInv m t start target [SPNode.root start] [] [] := by
  refine ⟨?_, Or.inl (List.mem_singleton.mpr rfl), ?_, ?_, ?_, ?_, ?_⟩
  · intro n hn
    rcases hn with hn | hn
    · rw [List.mem_singleton.mp hn]
      exact rfl
    · exact absurd hn (List.not_mem_nil n)
  · intro n hn
    exact absurd hn (List.not_mem_nil n)
  · intro n hn
    exact absurd hn (List.not_mem_nil n)
  · intro p hp
    exact absurd hp (List.not_mem_nil p)
  · intro k p _ hx
    have h0 := hx _ (List.mem_singleton.mpr rfl)
    rw [root_n_inputs] at h0
    omega
  · intro n hn
    exact absurd hn (List.not_mem_nil n)

theorem spInv_step {m : Mat} {t : PieceType} {start : Pos} {target : Cells}
    {st : SPState} {popped : List SPNode} {node : SPNode} {rest : List SPNode}
    (hinv : SPInv m t start target st.heap st.visited popped)
    (hpop : popMin st.heap = some (node, rest))
    (hnm : dropCells m t node.pos ≠ target) :
    SPInv m t start target
      (spInputs.foldl (spVisitStep m t node) ⟨rest, st.visited⟩).heap
      (spInputs.foldl (spVisitStep m t node) ⟨rest, st.visited⟩).visited
      (popped ++ [node]) := by
  obtain ⟨hW, hR, hE, hNM, hVD, hCC, hLB⟩ := hinv
  obtain ⟨hperm, hmin⟩ := popMin_spec hpop
  have hmemheap : ∀ x : SPNode, x ∈ st.heap ↔ (x = node ∨ x ∈ rest) := fun x => by
    rw [hperm.mem_iff]
    exact List.mem_cons
  have hnode : node ∈ st.heap := (hmemheap node).mpr (Or.inl rfl)
  set S := spInputs.foldl (spVisitStep m t node) (⟨rest, st.visited⟩ : SPState) with hS
  have hold_to_new : ∀ n : SPNode,
      (n ∈ st.heap ∨ n ∈ popped) → (n ∈ S.heap ∨ n ∈ popped ++ [node]) := by
    intro n hn
    rcases hn with hn | hn
    · rcases (hmemheap n).mp hn with rfl | hn2
      · exact Or.inr (List.mem_append_right _ (List.mem_singleton.mpr rfl))
      · exact Or.inl (foldHeapMono _ ⟨rest, st.visited⟩ n hn2)
    · exact Or.inr (List.mem_append_left _ hn)
  have hnew_heap : ∀ x ∈ S.heap, x ∈ rest ∨
      ∃ i p2, edgeStep m t node.pos i = some p2 ∧ x = SPNode.child node i p2 := by
    intro x hx
    rcases foldHeapCases spInputs ⟨rest, st.visited⟩ x hx with h1 | ⟨i, _, p2, he, rfl⟩
    · exact Or.inl h1
    · exact Or.inr ⟨i, p2, he, rfl⟩
  have hx_n : ∀ x ∈ st.heap, node.n_inputs ≤ x.n_inputs := fun x hx => dLE_fst (hmin x hx)
  have hWnode : node.Wf m t start := hW node (Or.inl hnode)
  have hW2 : ∀ n, (n ∈ S.heap ∨ n ∈ popped ++ [node]) → n.Wf m t start := by
    intro n hn
    rcases hn with hn | hn
    · rcases hnew_heap n hn with h1 | ⟨i, p2, he, rfl⟩
      · exact hW n (Or.inl ((hmemheap n).mpr (Or.inr h1)))
      · exact ⟨hWnode, he⟩
    · rcases List.mem_append.mp hn with h1 | h1
      · exact hW n (Or.inr h1)
      · rw [List.mem_singleton.mp h1]
        exact hWnode
  have hR2 : SPNode.root start ∈ S.heap ∨ SPNode.root start ∈ popped ++ [node] := by
    rcases hR with h1 | h1
    · rcases (hmemheap _).mp h1 with heq | h2
      · rw [← heq]
        exact Or.inr (List.mem_append_right _ (List.mem_singleton.mpr rfl))
      · exact Or.inl (foldHeapMono _ ⟨rest, st.visited⟩ _ h2)
    · exact Or.inr (List.mem_append_left _ h1)
  have hE2 : ∀ n ∈ popped ++ [node], ∀ (i : Input) (p2 : Pos),
      edgeStep m t n.pos i = some p2 → p2 ∈ S.visited := by
    intro n hn i p2 he
    rcases List.mem_append.mp hn with h1 | h1
    · exact foldVisitedMono _ ⟨rest, st.visited⟩ _ (hE n h1 i p2 he)
    · have hn2 := List.mem_singleton.mp h1
      subst hn2
      exact foldEdgeVisited spInputs ⟨rest, st.visited⟩ i (input_mem_spInputs i) p2 he
  have hNM2 : ∀ n ∈ popped ++ [node], dropCells m t n.pos ≠ target := by
    intro n hn
    rcases List.mem_append.mp hn with h1 | h1
    · exact hNM n h1
    · rw [List.mem_singleton.mp h1]
      exact hnm
  have hLB2 : ∀ n ∈ popped ++ [node], ∀ x ∈ S.heap, dLE n.distance x.distance = true := by
    intro n hn x hx
    have hnd : dLE n.distance node.distance = true := by
      rcases List.mem_append.mp hn with h1 | h1
      · exact hLB n h1 node hnode
      · rw [List.mem_singleton.mp h1]
        exact dLE_refl _
    rcases hnew_heap x hx with h1 | ⟨i, p2, he, rfl⟩
    · rcases List.mem_append.mp hn with h2 | h2
      · exact hLB n h2 x ((hmemheap x).mpr (Or.inr h1))
      · rw [List.mem_singleton.mp h2]
        exact hmin x ((hmemheap x).mpr (Or.inr h1))
    · refine dLE_trans hnd (dLE_of_fst_lt ?_)
      show node.distance.1 < (SPNode.child node i p2).distance.1
      have h1 : (SPNode.child node i p2).distance.1 = node.n_inputs + 1 := by
        show (SPNode.child node i p2).n_inputs = node.n_inputs + 1
        exact n_inputs_child node i p2
      rw [h1]
      exact Nat.lt_succ_of_le (le_of_eq rfl)
  have hCovOld : ∀ (p : Pos) (k : Nat), Cov m t start st.heap popped p k →
      Cov m t start S.heap (popped ++ [node]) p k := fun _ _ => cov_mono hold_to_new
  have hOldVD : ∀ p ∈ st.visited, ∀ k, ReachIn m t start k p →
      Cov m t start S.heap (popped ++ [node]) p k :=
    fun p hp k hr => hCovOld p k (hVD p hp k hr)
  have hRootCov : ∀ k, Cov m t start S.heap (popped ++ [node]) start k :=
    fun k => ⟨SPNode.root start, hR2, rfl, rfl, Nat.zero_le k⟩
  have hVD2 : ∀ p ∈ S.visited, ∀ k, ReachIn m t start k p →
      Cov m t start S.heap (popped ++ [node]) p k := by
    intro p hp k hr
    rcases foldVisitedCases spInputs ⟨rest, st.visited⟩ p hp with h1 | ⟨i, _, he, hh⟩
    · exact hOldVD p h1 k hr
    · by_cases hk : node.n_inputs + 1 ≤ k
      · exact ⟨SPNode.child node i p, Or.inl hh, rfl, ⟨hWnode, he⟩, by
          rw [n_inputs_child]
          omega⟩
      · cases hr with
        | zero => exact hRootCov 0
        | succ hr0 he0 =>
          rename_i k0 q i0
          by_cases hklt : k0 + 1 < node.n_inputs
          · refine hCovOld p (k0 + 1) (hCC (k0 + 1) p (ReachIn.succ hr0 he0) ?_)
            intro x hx
            exact lt_of_lt_of_le hklt (hx_n x hx)
          · have hke : k0 + 1 = node.n_inputs := by omega
            have hcov_q := hCC k0 q hr0 (fun x hx => by
              have := hx_n x hx
              omega)
            obtain ⟨n1, hn1mem, hn1pos, hn1wf, hn1le⟩ := hcov_q
            rcases hn1mem with h2 | h2
            · have := hx_n n1 h2
              omega
            · have hpv : p ∈ st.visited := hE n1 h2 i0 p (hn1pos.symm ▸ he0)
              exact hOldVD p hpv (k0 + 1) (ReachIn.succ hr0 he0)
  have hCC2 : ∀ k p, ReachIn m t start k p → (∀ x ∈ S.heap, k < x.n_inputs) →
      Cov m t start S.heap (popped ++ [node]) p k := by
    intro k
    induction k using Nat.strong_induction_on with
    | _ k ihk =>
      intro p hr hx
      cases hr with
      | zero => exact hRootCov 0
      | succ hr0 he0 =>
        rename_i k0 q i0
        have hcovq := ihk k0 (by omega) q hr0 (fun x hxm => by
          have := hx x hxm
          omega)
        obtain ⟨n1, hn1mem, hn1pos, hn1wf, hn1le⟩ := hcovq
        rcases hn1mem with h2 | h2
        · have := hx n1 h2
          omega
        · have hpv : p ∈ S.visited := hE2 n1 h2 i0 p (hn1pos.symm ▸ he0)
          exact hVD2 p hpv (k0 + 1) (ReachIn.succ hr0 he0)
  exact ⟨hW2, hR2, hE2, hNM2, hVD2, hCC2, hLB2⟩

end Mino

namespace Mino

theorem spSearch_found {m : Mat} {t : PieceType} {start : Pos} {target : Cells} :
    ∀ (fuel : Nat) (st : SPState) (popped : List SPNode) (nstar : SPNode),
      SPInv m t start target st.heap st.visited popped →
      spSearch m t target fuel st = some nstar →
      nstar.Wf m t start ∧ dropCells m t nstar.pos = target ∧
        ∀ k p, ReachIn m t start k p → dropCells m t p = target →
          nstar.n_inputs ≤ k := by
  intro fuel
  induction fuel with
  | zero =>
    intro st popped nstar _ h
    exact absurd h (by simp [spSearch])
  | succ fuel ih =>
    intro st popped nstar hinv hs
    rw [spSearch] at hs
    rcases hp : popMin st.heap with _ | pr
    · rw [hp] at hs
      exact absurd hs (by simp)
    · rw [hp] at hs
      obtain ⟨node, rest⟩ := pr
      dsimp only at hs
      by_cases hmatch : (spVisit m t node { st with heap := rest }).2 = target
      · rw [if_pos hmatch] at hs
        have hns : node = nstar := by
          injection hs
        subst hns
        obtain ⟨hW, hR, hE, hNM, hVD, hCC, hLB⟩ := hinv
        obtain ⟨hperm, hmin⟩ := popMin_spec hp
        have hnode : node ∈ st.heap := hperm.mem_iff.mpr (List.mem_cons_self _ _)
        have hWnode := hW node (Or.inl hnode)
        have hdc : dropCells m t node.pos = target := hmatch
        refine ⟨hWnode, hdc, ?_⟩
        intro k p hr hdrop
        by_contra hlt
        push_neg at hlt
        have hx_n : ∀ x ∈ st.heap, node.n_inputs ≤ x.n_inputs :=
          fun x hx => dLE_fst (hmin x hx)
        have claim : ∀ j, j ≤ k → ∀ q, ReachIn m t start j q →
            ∃ nj ∈ popped, nj.pos = q ∧ nj.n_inputs ≤ j := by
          intro j
          induction j using Nat.strong_induction_on with
          | _ j ihj =>
            intro hjk q hrq
            cases hrq with
            | zero =>
              rcases hR with h1 | h1
              · exfalso
                have h0 := hx_n _ h1
                rw [root_n_inputs] at h0
                omega
              · exact ⟨SPNode.root start, h1, rfl, Nat.le_refl 0⟩
            | succ hr0 he0 =>
              rename_i j0 q0 i0
              obtain ⟨n1, hn1p, hn1pos, hn1le⟩ := ihj j0 (by omega) (by omega) q0 hr0
              have hqv : q ∈ st.visited := hE n1 hn1p i0 q (hn1pos.symm ▸ he0)
              obtain ⟨n2, hn2mem, hn2pos, hn2wf, hn2le⟩ :=
                hVD q hqv (j0 + 1) (ReachIn.succ hr0 he0)
              rcases hn2mem with h2 | h2
              · exfalso
                have := hx_n n2 h2
                omega
              · exact ⟨n2, h2, hn2pos, hn2le⟩
        obtain ⟨nk, hnkp, hnkpos, _⟩ := claim k (le_refl k) p hr
        exact hNM nk hnkp (hnkpos.symm ▸ hdrop)
      · rw [if_neg hmatch] at hs
        exact ih (spVisit m t node { st with heap := rest }).1 (popped ++ [node]) nstar
          (spInv_step hinv hp hmatch) hs

end Mino

namespace Claims

open Mino Bluefin

/-- C2, counterexample.  `reach` on the empty matrix for target T at
`(0, 1, N)` returns `[Left, Left, Left]` (the expected value in the
tests of the source), but executing those inputs from the spawn pose leaves the piece
hovering at `(0, 20, N)`, whose cells are not the target cells: the
returned sequence deliberately omits the terminal drop, so its
execution alone does not reach the target cells. -/
theorem c2_counterexample :
    reach [] ⟨.T, ⟨0, 1, .N⟩⟩ 100 = some [.Left, .Left, .Left] ∧
      Piece.cells ⟨.T, run [] .T (Piece.spawn .T).pos [.Left, .Left, .Left]⟩ ≠
        Piece.cells ⟨.T, ⟨0, 1, .N⟩⟩ := by
  refine ⟨by decide, by decide⟩

/-- C2, amended.  If `reach` returns `Some(inputs)`, then executing
`inputs` step by step from the spawn pose *followed by one final sonic
drop* leaves the piece with cells equal to the cells of the target, and
the length of `inputs` is at most the length of every other input sequence
over `{Left, Right, Cw, Ccw, SonicDrop}` whose execution from spawn
followed by a final sonic drop reaches the same cells. -/
theorem c2_reach_minimal (fuel : Nat) (m : Mat) (target : Piece) (inputs : List Input)
    (h : reach m target fuel = some inputs) :
    dropCells m target.shape
        (run m target.shape (Piece.spawn target.shape).pos inputs) = target.cells ∧
      ∀ l : List Input,
        dropCells m target.shape (run m target.shape (Piece.spawn target.shape).pos l) =
          target.cells →
        inputs.length ≤ l.length := by
  simp only [reach] at h
  rcases hsp : spSearch m target.shape target.cells fuel
      ⟨[SPNode.root (Piece.spawn target.shape).pos], []⟩ with _ | n
  · rw [hsp] at h
    exact absurd h (by simp)
  · rw [hsp] at h
    simp only [Option.map_some', Option.some.injEq] at h
    subst h
    have hfound := spSearch_found fuel _ [] n
      (spInv_init m target.shape (Piece.spawn target.shape).pos target.cells) hsp
    obtain ⟨hwf, hdc, hmin⟩ := hfound
    constructor
    · rw [wf_run hwf]
      exact hdc
    · intro l hl
      obtain ⟨k, hk, hrk⟩ :=
        run_reachIn m target.shape (Piece.spawn target.shape).pos l
      have h1 := hmin k _ hrk hl
      rw [inputs_length]
      omega

/-- C2 witness: the concrete S4 target, with a longer detouring sequence
as the competitor. -/
theorem c2_reach_minimal_witness :
    dropCells [] .T (run [] .T (Piece.spawn .T).pos [.Left, .Left, .Left]) =
        Piece.cells ⟨.T, ⟨0, 1, .N⟩⟩ ∧
      ([Input.Left, .Left, .Left] : List Input).length ≤
        ([Input.Right, .Left, .Left, .Left, .Left] : List Input).length := by
  have h := c2_reach_minimal 100 [] ⟨.T, ⟨0, 1, .N⟩⟩ [.Left, .Left, .Left] (by decide)
  exact ⟨h.1, h.2 [.Right, .Left, .Left, .Left, .Left] (by decide)⟩

end Claims
